import Mathlib

/-!
# Verification of the Tale scheduling / command core

Shallow embedding of the time-keeping, deferred-action ordering,
privilege-gated command execution and suspendable-command machinery of
the Tale interactive-fiction driver, with theorems settling the spec's
claims about them.

Python `datetime`/`timedelta` values are exact multiples of a microsecond,
so clock values and time deltas are embedded as rationals (`ℚ`), which
makes the arithmetic of the source exact.
-/

namespace Tale

/-! ## `tale/util.py` — `GameDateTime`

The class keeps the in-world clock (`clock`) and a fixed speed-up factor
(`times_realtime`).  Methods either mutate `self.clock` or return a
converted timestamp.  Mutating methods are embedded as functions
returning the new object; the read-only conversions `plus_realtime` and
`minus_realtime` are embedded as state transformers returning the
(unchanged) object together with the computed timestamp, mirroring the
fact that a Python method has access to `self` and could mutate it. -/

structure GameDateTime where
  clock : ℚ
  times_realtime : ℚ
  deriving DecidableEq, Repr

/-- Constructor `GameDateTime.__init__`: `assert times_realtime >= 0` then store both
fields.  A failed assert is embedded as `none`. -/
def GameDateTime.init (dt : ℚ) (times_realtime : ℚ) : Option GameDateTime :=
  if 0 ≤ times_realtime then some ⟨dt, times_realtime⟩ else none

/-- Method `add_gametime`: `self.clock += timedelta`. -/
def GameDateTime.add_gametime (g : GameDateTime) (timedelta : ℚ) : GameDateTime :=
  { g with clock := g.clock + timedelta }

/-- Method `sub_gametime`: `self.clock -= timedelta`. -/
def GameDateTime.sub_gametime (g : GameDateTime) (timedelta : ℚ) : GameDateTime :=
  { g with clock := g.clock - timedelta }

/-- Method `plus_realtime`: `return self.clock + timedelta * self.times_realtime`
(no mutation: the returned state is `self` as the body leaves it). -/
def GameDateTime.plus_realtime (g : GameDateTime) (timedelta : ℚ) : GameDateTime × ℚ :=
  (g, g.clock + timedelta * g.times_realtime)

/-- Method `minus_realtime`: `return self.clock - timedelta * self.times_realtime`. -/
def GameDateTime.minus_realtime (g : GameDateTime) (timedelta : ℚ) : GameDateTime × ℚ :=
  (g, g.clock - timedelta * g.times_realtime)

/-- Method `add_realtime`: `self.clock += timedelta * self.times_realtime`.
The source checks only `isinstance(timedelta, datetime.timedelta)`;
there is no sign check on the delta. -/
def GameDateTime.add_realtime (g : GameDateTime) (timedelta : ℚ) : GameDateTime :=
  { g with clock := g.clock + timedelta * g.times_realtime }

/-- Method `sub_realtime`: `self.clock -= timedelta * self.times_realtime`. -/
def GameDateTime.sub_realtime (g : GameDateTime) (timedelta : ℚ) : GameDateTime :=
  { g with clock := g.clock - timedelta * g.times_realtime }

/-- One call on a `GameDateTime` object, for reasoning about arbitrary
call sequences. -/
inductive GOp where
  | addGametime (d : ℚ)
  | subGametime (d : ℚ)
  | plusRealtime (d : ℚ)
  | minusRealtime (d : ℚ)
  | addRealtime (d : ℚ)
  | subRealtime (d : ℚ)
  deriving DecidableEq, Repr

/-- Apply one method call to the object (conversions keep the state they
return as first component). -/
def applyGOp (g : GameDateTime) : GOp → GameDateTime
  | .addGametime d => g.add_gametime d
  | .subGametime d => g.sub_gametime d
  | .plusRealtime d => (g.plus_realtime d).1
  | .minusRealtime d => (g.minus_realtime d).1
  | .addRealtime d => g.add_realtime d
  | .subRealtime d => g.sub_realtime d

/-- Apply a sequence of method calls in order. -/
def applyGOps (g : GameDateTime) (ops : List GOp) : GameDateTime :=
  ops.foldl applyGOp g

/-! ## Deferred actions and their ordering

`tale/driver.py` itself is not under `src/`; its `Deferred` class is
known here through its unit tests (`src/tests/test_driver.py`
constructs `Deferred(due, owner, callable, vargs, kwargs)` and sorts /
heapifies lists of them) and through the spec, so the record layout and
the comparison are modelled from those. -/

/-- Modelled from the spec: `tale.driver.Deferred` (the class itself is
not under `src/`; the field list follows the constructor calls in
`src/tests/test_driver.py` and §3 of the spec: a due time, the owning
actor, and the callable with its bound arguments). -/
structure Deferred where
  due : ℚ
  owner : String
  action : String
  vargs : List String
  kwargs : List (String × String)
  deriving DecidableEq, Repr

/-- Modelled from the spec: the total order on deferreds is *by `due`
ascending only*; no field other than `due` takes part in the
comparison. -/
def Deferred.le (a b : Deferred) : Bool := decide (a.due ≤ b.due)

/-- Sorting a collection of deferreds with the due-only comparison
(`sorted(...)` over `Deferred` values). -/
def sortDeferreds (l : List Deferred) : List Deferred :=
  l.mergeSort Deferred.le

/-- Smallest-due element of the non-empty list `x :: xs` (the element a
binary heap of deferreds yields on `heappop`). -/
def findMinDeferred (x : Deferred) (xs : List Deferred) : Deferred :=
  xs.foldl (fun m y => if y.due < m.due then y else m) x

/-- Fuelled worker for `popAllDeferreds`: each step removes a
minimum-due element, so `l.length` steps of fuel always suffice. -/
def popAllAux : ℕ → List Deferred → List Deferred
  | 0, _ => []
  | _ + 1, [] => []
  | n + 1, x :: xs =>
    findMinDeferred x xs :: popAllAux n ((x :: xs).erase (findMinDeferred x xs))

/-- Repeatedly popping the minimum-due deferred until the collection is
empty: the drain order of a heapified collection. -/
def popAllDeferreds (l : List Deferred) : List Deferred :=
  popAllAux l.length l

/-! ## `tale/cmds/wizard.py` — `do_events`

The `!events` command reads `driver.heartbeat_objects` and
`driver.deferreds` and tells the player a report; it writes nothing
back.  It is embedded as a state transformer returning the (unchanged)
driver state together with the data content of the report: the
heartbeat list, the full deferred count, `num_shown = min(50, count)`,
and `sorted(driver.deferreds)[:50]`. -/

/-- The data contained in the `!events` report. -/
structure EventsReport where
  heartbeats : List String
  total_deferreds : ℕ
  num_shown : ℕ
  shown : List Deferred
  deriving DecidableEq, Repr

/-- The driver state read by `do_events`. -/
structure DriverState where
  heartbeat_objects : List String
  deferreds : List Deferred
  deriving DecidableEq, Repr

/-- Command `do_events`: dump pending actions — heartbeat objects, then
`num_shown = min(50, len(driver.deferreds))` and the rows
`sorted(driver.deferreds)[:50]`. -/
def do_events (st : DriverState) : DriverState × EventsReport :=
  (st,
    { heartbeats := st.heartbeat_objects
      total_deferreds := st.deferreds.length
      num_shown := min 50 st.deferreds.length
      shown := (sortDeferreds st.deferreds).take 50 })

/-! ## `tale/cmds/wizard.py` — privilege gating and suspendable handlers -/

/-- Helper `lang.capital`: capitalize the first letter of a string. -/
def capital (s : String) : String := s.capitalize

/-- A destroy/clean target as the wizard handlers read it: its display
title, subjective pronoun, name, inventory contents, and the number of
items still present after the clean attempt (items may refuse to be
destroyed). -/
structure Victim where
  title : String
  subjective : String
  name : String
  inventory : List String
  inventory_size_after : ℕ
  deriving DecidableEq, Repr

/-- The fields of a `ParseResult` that the embedded commands read. -/
structure ParseResult where
  verb : String
  args : List String
  who_order : List Victim
  who_info : List Victim
  unrecognized : List String
  deriving DecidableEq, Repr

/-- A player as the privilege check reads it. -/
structure Player where
  privileges : List String
  deriving DecidableEq, Repr

/-- The errors raised by the command layer (`tale.errors`). -/
inductive TaleError where
  | securityViolation (msg : String)
  | parseError (msg : String)
  deriving DecidableEq, Repr

/-- The wrapper `executewizcommand` that `wizcmd` installs: raise `SecurityViolation`
when `"wizard" not in player.privileges`, otherwise call the wrapped
handler and return its result unchanged.  The handler is an arbitrary
state transformer over a world state `σ` with a context `κ`; raising is
embedded as `Except.error`, which carries no successor state. -/
def executewizcommand {σ κ α : Type} (func : Player → ParseResult → κ → σ → σ × α)
    (player : Player) (parsed : ParseResult) (ctx : κ) (st : σ) :
    Except TaleError (σ × α) :=
  if "wizard" ∉ player.privileges then
    Except.error (TaleError.securityViolation
      ("Wizard privilege required for verb " ++ parsed.verb))
  else
    Except.ok (func player parsed ctx st)

/-- A suspendable command handler (a Python generator): either finished
with a result, or yielding an `("input", (prompt, lang.yesno))` request
and awaiting the boolean reply the validator produces. -/
inductive Proc (α : Type) where
  | done : α → Proc α
  | ask : String → (Bool → Proc α) → Proc α

/-- The observable effects the embedded wizard handlers produce. -/
inductive Effect where
  | tell (msg : String)
  | tellOthers (msg : String)
  | wizDestroy (victim : String)
  | removeItem (item : String)
  | destroyItem (item : String)
  deriving DecidableEq, Repr

/-- The generator loop of `do_destroy` over the victims (the body after its
two parse guards): per victim, yield the confirmation question; on a
falsy reply tell "You leave ... be." and continue, on a truthy reply
destroy the victim and report it. -/
def do_destroy_loop : List Victim → List Effect → Proc (List Effect)
  | [], acc => .done acc
  | v :: vs, acc =>
    .ask ("Are you sure you want to destroy " ++ v.title ++ "?") (fun reply =>
      if reply then
        do_destroy_loop vs (acc ++
          [.wizDestroy v.name,
            .tell ("You destroyed " ++ v.name ++ "."),
            .tellOthers ("\x7bTitle\x7d makes some gestures and a tiny black hole appears.\n"
              ++ capital v.title
              ++ " disappears in it, and the black hole immediately vanishes.")])
      else
        do_destroy_loop vs (acc ++ [.tell ("You leave " ++ v.subjective ++ " be.")]))

/-- Command `do_destroy` with its two parse guards: `ParseError` when there is
no target or when words were not recognized, otherwise the generator. -/
def do_destroy (parsed : ParseResult) : Except TaleError (Proc (List Effect)) :=
  if parsed.who_order.isEmpty then
    Except.error (TaleError.parseError "Destroy what or who?")
  else if ¬ parsed.unrecognized.isEmpty then
    Except.error (TaleError.parseError
      ("It's not clear what you mean by: " ++ String.intercalate "," parsed.unrecognized))
  else
    Except.ok (do_destroy_loop parsed.who_info [])

/-- The effects of the yes branch of `do_clean` on a victim: announce, then
remove and destroy every inventory item, then complain if some items
refused to be destroyed (`victim.inventory_size` still non-zero). -/
def clean_victim_effects (v : Victim) : List Effect :=
  [Effect.tell ("Cleaning inventory of " ++ v.name ++ "."),
    Effect.tellOthers ("\x7bTitle\x7d cleans out the inventory of " ++ v.title ++ ".")]
  ++ v.inventory.flatMap (fun it =>
      [Effect.removeItem it, Effect.destroyItem it, Effect.tell ("destroyed " ++ it)])
  ++ (if v.inventory_size_after ≠ 0
      then [Effect.tell "Some items refused to be destroyed!"] else [])

/-- The single-victim branch of `do_clean` (the command's else branch with
`len(parsed.who_order) == 1`): yield the confirmation question, then
clean on a truthy reply or leave the victim be on a falsy one. -/
def do_clean_victim (v : Victim) : Proc (List Effect) :=
  .ask ("Are you sure you want to clean out " ++ v.title ++ "?") (fun reply =>
    .done (if reply then clean_victim_effects v
      else [Effect.tell ("You leave " ++ v.subjective ++ " be.")]))

/-- The executor's pause/resume protocol for a handler that yields one
request: run to the first yield (none means the handler was not
suspendable after all), record the suspension, resume with the actor's
reply, and require the resumed procedure to run to completion. -/
def runOneReply {α : Type} (p : Proc α) (reply : Bool) : Option α :=
  match p with
  | .done _ => none
  | .ask _ k =>
    match k reply with
    | .done a => some a
    | .ask _ _ => none

/-- Does the procedure yield exactly one suspension request on every
reply path? -/
def yieldsOnce {α : Type} : Proc α → Bool
  | .done _ => false
  | .ask _ k =>
    (match k true with | .done _ => true | .ask _ _ => false)
      && (match k false with | .done _ => true | .ask _ _ => false)

/-- Modelled from the spec: the "equivalent non-suspending handler that
received that reply value directly" for `do_destroy` on a single
victim. -/
def do_destroy_direct (v : Victim) (reply : Bool) : List Effect :=
  if reply then
    [Effect.wizDestroy v.name,
      Effect.tell ("You destroyed " ++ v.name ++ "."),
      Effect.tellOthers ("\x7bTitle\x7d makes some gestures and a tiny black hole appears.\n"
        ++ capital v.title
        ++ " disappears in it, and the black hole immediately vanishes.")]
  else
    [Effect.tell ("You leave " ++ v.subjective ++ " be.")]

/-- Modelled from the spec: the "equivalent non-suspending handler that
received that reply value directly" for `do_clean` on a single
victim. -/
def do_clean_direct (v : Victim) (reply : Bool) : List Effect :=
  if reply then clean_victim_effects v
  else [Effect.tell ("You leave " ++ v.subjective ++ " be.")]

/-! ## Periodic calls and the heartbeat registry

`tale.util.call_periodically` and the driver's deferred re-scheduling
live in code that is not under `src/` (only the decorated uses in the
story zones are), so they are modelled from the spec. -/

/-- Modelled from the spec: the configuration the periodic-call helper
takes — a `(min_interval, max_interval)` tick range (the decorated uses:
`call_periodically(1, 60)`, `call_periodically(10, 20)`,
`call_periodically(4, 10)`). -/
structure PeriodicSpec where
  min_interval : ℚ
  max_interval : ℚ
  deriving DecidableEq, Repr

/-- Modelled from the spec: one firing of the periodic deferred — it
performs the behavior and immediately re-schedules its own next
occurrence `draw` ticks later, where `draw` is the uniform random
sample from `[min_interval, max_interval]` supplied by the scheduler's
RNG. -/
def periodic_fire {σ : Type} (behavior : σ → σ) (draw : ℚ) (now : ℚ) (st : σ) : σ × ℚ :=
  (behavior st, now + draw)

/-- A whole sequence of periodic firings, `draws` being the successive
RNG samples; returns the final state and the final scheduled due
time. -/
def periodic_run {σ : Type} (behavior : σ → σ) (draws : List ℚ) (now : ℚ) (st : σ) : σ × ℚ :=
  draws.foldl (fun p d => periodic_fire behavior d p.2 p.1) (st, now)

/-- Modelled from the spec: `register_heartbeat` — the heartbeat
registry is a bare set of actors with idempotent membership operations;
it carries no interval data at all (intervals live only in the
periodic-call layer above it). -/
def registerHeartbeat (reg : List String) (actor : String) : List String :=
  if actor ∈ reg then reg else actor :: reg

/-- Modelled from the spec: `unregister_heartbeat`. -/
def unregisterHeartbeat (reg : List String) (actor : String) : List String :=
  reg.filter (fun a => a ≠ actor)

/-! ### Theorems about `GameDateTime` -/

/-- C3: for every clock with scale factor `s` and every non-negative
real-time delta `d`, `add_realtime d` sets the clock to its old value
plus `d * s`; in particular a zero scale freezes the clock under
real-time advances. -/
theorem add_realtime_adds_scaled_delta (g : GameDateTime) (d : ℚ) (hd : 0 ≤ d) :
    (g.add_realtime d).clock = g.clock + d * g.times_realtime ∧
      (g.add_realtime d).times_realtime = g.times_realtime ∧
      (g.times_realtime = 0 → (g.add_realtime d).clock = g.clock) := by
  refine ⟨rfl, rfl, fun hs => ?_⟩
  simp [GameDateTime.add_realtime, hs]

/-- Witness for `add_realtime_adds_scaled_delta` at clock 7, scale 3,
delta 2. -/
theorem add_realtime_adds_scaled_delta_witness :
    (GameDateTime.add_realtime ⟨7, 3⟩ 2).clock = 7 + 2 * 3 ∧
      (GameDateTime.add_realtime ⟨7, 3⟩ 2).times_realtime = 3 ∧
      ((3 : ℚ) = 0 → (GameDateTime.add_realtime ⟨7, 3⟩ 2).clock = 7) :=
  add_realtime_adds_scaled_delta ⟨7, 3⟩ 2 (by norm_num)

/-- C2 counterexample: `add_realtime` performs no sign check, so a
negative real-time delta is not rejected — the call succeeds (it cannot
raise `InvalidArgument`: the only check in its body is the `isinstance`
assert) and the clock moves backwards instead of staying unchanged. -/
theorem add_realtime_negative_delta_succeeds :
    GameDateTime.add_realtime ⟨0, 1⟩ (-1) = ⟨-1, 1⟩ ∧
      (GameDateTime.add_realtime ⟨0, 1⟩ (-1)).clock ≠ (0 : ℚ) := by
  constructor
  · simp [GameDateTime.add_realtime]
  · simp [GameDateTime.add_realtime]

/-- C2 amended: `add_realtime` accepts every delta, negative ones
included, and always sets the clock to `clock + delta * scale`; with a
positive scale a negative delta strictly rewinds the clock rather than
failing. -/
theorem add_realtime_accepts_negative (g : GameDateTime) (d : ℚ)
    (hd : d < 0) (hs : 0 < g.times_realtime) :
    (g.add_realtime d).clock = g.clock + d * g.times_realtime ∧
      (g.add_realtime d).clock < g.clock := by
  refine ⟨rfl, ?_⟩
  have : d * g.times_realtime < 0 := mul_neg_of_neg_of_pos hd hs
  simp only [GameDateTime.add_realtime]
  linarith

/-- Witness for `add_realtime_accepts_negative` at clock 5, scale 2,
delta -3. -/
theorem add_realtime_accepts_negative_witness :
    (GameDateTime.add_realtime ⟨5, 2⟩ (-3)).clock = 5 + (-3) * 2 ∧
      (GameDateTime.add_realtime ⟨5, 2⟩ (-3)).clock < 5 :=
  add_realtime_accepts_negative ⟨5, 2⟩ (-3) (by norm_num) (by norm_num)

/-- C4: for a positive scale, advancing the clock by a real-time delta
and then rewinding by the same delta restores the original clock exactly
(the arithmetic is exact in `ℚ`, so the round trip is the identity and
in particular within any floating-point tolerance). -/
theorem add_sub_realtime_roundtrip (g : GameDateTime) (d : ℚ)
    (hs : 0 < g.times_realtime) :
    (g.add_realtime d).sub_realtime d = g := by
  cases g with
  | mk clock times_realtime =>
    simp [GameDateTime.add_realtime, GameDateTime.sub_realtime]

/-- Witness for `add_sub_realtime_roundtrip` at clock 11, scale 4,
delta 9. -/
theorem add_sub_realtime_roundtrip_witness :
    (GameDateTime.add_realtime ⟨11, 4⟩ 9).sub_realtime 9 = ⟨11, 4⟩ :=
  add_sub_realtime_roundtrip ⟨11, 4⟩ 9 (by norm_num)

/-- C6: no method of `GameDateTime` ever changes `times_realtime` — any
sequence of calls leaves it at the constructed value — and construction
asserts `times_realtime >= 0` and stores the given scale unchanged. -/
theorem times_realtime_invariant :
    (∀ (g : GameDateTime) (ops : List GOp),
        (applyGOps g ops).times_realtime = g.times_realtime) ∧
      (∀ dt s : ℚ, ((GameDateTime.init dt s).isSome ↔ 0 ≤ s) ∧
        ∀ g, GameDateTime.init dt s = some g → g.times_realtime = s) := by
  constructor
  · intro g ops
    induction ops generalizing g with
    | nil => rfl
    | cons op rest ih =>
      have hstep : (applyGOp g op).times_realtime = g.times_realtime := by
        cases op <;> rfl
      calc (applyGOps g (op :: rest)).times_realtime
          = (applyGOps (applyGOp g op) rest).times_realtime := rfl
        _ = (applyGOp g op).times_realtime := ih _
        _ = g.times_realtime := hstep
  · intro dt s
    constructor
    · unfold GameDateTime.init
      split <;> simp_all
    · intro g hg
      unfold GameDateTime.init at hg
      split at hg
      · cases hg; rfl
      · cases hg

/-- Witness for `times_realtime_invariant`: a concrete call sequence on
a clock constructed with scale 2. -/
theorem times_realtime_invariant_witness :
    (applyGOps ⟨0, 2⟩ [GOp.addRealtime 3, GOp.subGametime 1, GOp.plusRealtime 4]).times_realtime
        = (2 : ℚ) ∧
      ((⟨5, 2⟩ : GameDateTime).times_realtime = (2 : ℚ)) :=
  ⟨times_realtime_invariant.1 ⟨0, 2⟩ [GOp.addRealtime 3, GOp.subGametime 1, GOp.plusRealtime 4],
    (times_realtime_invariant.2 5 2).2 ⟨5, 2⟩ (by norm_num [GameDateTime.init])⟩

/-- C7: the conversions `plus_realtime` and `minus_realtime` are pure:
they leave the object (both its `clock` and its `times_realtime` field)
unchanged and return the clock plus/minus the scaled delta. -/
theorem plus_minus_realtime_pure (g : GameDateTime) (d : ℚ) :
    (g.plus_realtime d).1 = g ∧ (g.minus_realtime d).1 = g ∧
      (g.plus_realtime d).1.clock = g.clock ∧
      (g.plus_realtime d).1.times_realtime = g.times_realtime ∧
      (g.plus_realtime d).2 = g.clock + d * g.times_realtime ∧
      (g.minus_realtime d).2 = g.clock - d * g.times_realtime :=
  ⟨rfl, rfl, rfl, rfl, rfl, rfl⟩

/-! ### Theorems about deferred ordering and `do_events` -/

/-- The minimum returned by `findMinDeferred` is one of the list's
elements. -/
theorem findMinDeferred_mem (x : Deferred) (xs : List Deferred) :
    findMinDeferred x xs ∈ x :: xs := by
  induction xs generalizing x with
  | nil => simp [findMinDeferred]
  | cons y ys ih =>
    have h := ih (if y.due < x.due then y else x)
    simp only [findMinDeferred, List.foldl_cons] at h ⊢
    rcases List.mem_cons.mp h with h1 | h1
    · rw [h1]
      split <;> simp
    · simp [h1]

/-- The minimum returned by `findMinDeferred` has the smallest due time
of the list. -/
theorem findMinDeferred_le (x : Deferred) (xs : List Deferred) :
    ∀ z ∈ x :: xs, (findMinDeferred x xs).due ≤ z.due := by
  induction xs generalizing x with
  | nil =>
    intro z hz
    rw [List.mem_singleton] at hz
    subst hz
    simp [findMinDeferred]
  | cons y ys ih =>
    intro z hz
    simp only [findMinDeferred, List.foldl_cons]
    by_cases hyx : y.due < x.due
    · rw [if_pos hyx]
      have hmin := ih y
      simp only [findMinDeferred] at hmin
      rcases List.mem_cons.mp hz with rfl | hz1
      · exact le_trans (hmin y (List.mem_cons_self _ _)) (le_of_lt hyx)
      · exact hmin z hz1
    · rw [if_neg hyx]
      have hmin := ih x
      simp only [findMinDeferred] at hmin
      rcases List.mem_cons.mp hz with rfl | hz1
      · exact hmin z (List.mem_cons_self _ _)
      · rcases List.mem_cons.mp hz1 with rfl | hz2
        · exact le_trans (hmin x (List.mem_cons_self _ _)) (le_of_not_lt hyx)
        · exact hmin z (List.mem_cons_of_mem _ hz2)

/-- With enough fuel, popping all minima yields a permutation of the
input collection. -/
theorem popAllAux_perm :
    ∀ (n : ℕ) (l : List Deferred), l.length ≤ n → (popAllAux n l).Perm l := by
  intro n
  induction n with
  | zero =>
    intro l hl
    rw [Nat.le_zero, List.length_eq_zero] at hl
    subst hl
    simp [popAllAux]
  | succ n ih =>
    intro l hl
    match l with
    | [] => simp [popAllAux]
    | x :: xs =>
      have hmem := findMinDeferred_mem x xs
      have hlen : ((x :: xs).erase (findMinDeferred x xs)).length ≤ n := by
        rw [List.length_erase_of_mem hmem, List.length_cons]
        simpa using Nat.le_of_succ_le_succ hl
      have hperm := ih _ hlen
      exact (hperm.cons (findMinDeferred x xs)).trans (List.perm_cons_erase hmem).symm

/-- With enough fuel, popping all minima yields an ascending-due
sequence. -/
theorem popAllAux_sorted :
    ∀ (n : ℕ) (l : List Deferred), l.length ≤ n →
      (popAllAux n l).Sorted (fun a b => a.due ≤ b.due) := by
  intro n
  induction n with
  | zero =>
    intro l hl
    rw [Nat.le_zero, List.length_eq_zero] at hl
    subst hl
    simp [popAllAux]
  | succ n ih =>
    intro l hl
    match l with
    | [] => simp [popAllAux]
    | x :: xs =>
      have hmem := findMinDeferred_mem x xs
      have hlen : ((x :: xs).erase (findMinDeferred x xs)).length ≤ n := by
        rw [List.length_erase_of_mem hmem, List.length_cons]
        simpa using Nat.le_of_succ_le_succ hl
      rw [show popAllAux (n + 1) (x :: xs)
            = findMinDeferred x xs
              :: popAllAux n ((x :: xs).erase (findMinDeferred x xs)) from rfl,
        List.sorted_cons]
      refine ⟨fun b hb => ?_, ih _ hlen⟩
      have hb1 : b ∈ (x :: xs).erase (findMinDeferred x xs) :=
        (popAllAux_perm n _ hlen).mem_iff.mp hb
      exact findMinDeferred_le x xs b (List.mem_of_mem_erase hb1)

/-- Relation `Deferred.le` is transitive (as a boolean relation). -/
theorem deferredLe_trans (a b c : Deferred) :
    Deferred.le a b = true → Deferred.le b c = true → Deferred.le a c = true := by
  simp only [Deferred.le, decide_eq_true_eq]
  exact le_trans

/-- Relation `Deferred.le` is total (as a boolean relation). -/
theorem deferredLe_total (a b : Deferred) :
    (Deferred.le a b || Deferred.le b a) = true := by
  simp only [Deferred.le, Bool.or_eq_true, decide_eq_true_eq]
  exact le_total a.due b.due

/-- Function `sortDeferreds` produces an ascending-due list. -/
theorem sortDeferreds_sorted (l : List Deferred) :
    (sortDeferreds l).Sorted (fun a b => a.due ≤ b.due) := by
  have h := List.sorted_mergeSort deferredLe_trans deferredLe_total l
  exact List.Pairwise.imp
    (fun hab => by simpa [Deferred.le] using hab) h

/-- C5: the comparison on deferreds looks only at `due` (two pairs that
agree on their due times compare identically whatever their other
fields), sorting a collection yields a permutation of it in ascending
due order, and repeatedly popping the minimum (heap drain) likewise
yields a permutation in ascending due order. -/
theorem deferred_order_by_due_only :
    (∀ a b : Deferred, Deferred.le a b = decide (a.due ≤ b.due)) ∧
      (∀ a b a' b' : Deferred, a.due = a'.due → b.due = b'.due →
        Deferred.le a b = Deferred.le a' b') ∧
      (∀ l : List Deferred,
        (sortDeferreds l).Sorted (fun x y => x.due ≤ y.due) ∧ (sortDeferreds l).Perm l) ∧
      (∀ l : List Deferred,
        (popAllDeferreds l).Sorted (fun x y => x.due ≤ y.due) ∧ (popAllDeferreds l).Perm l) := by
  refine ⟨fun a b => rfl, fun a b a' b' ha hb => ?_, fun l => ⟨?_, ?_⟩, fun l => ⟨?_, ?_⟩⟩
  · simp [Deferred.le, ha, hb]
  · exact sortDeferreds_sorted l
  · exact List.mergeSort_perm l Deferred.le
  · exact popAllAux_sorted l.length l le_rfl
  · exact popAllAux_perm l.length l le_rfl

/-- Witness for `deferred_order_by_due_only`: two deferred pairs that
agree on due times but on nothing else compare identically (and the
test scenario: dues 5,2,4,1,3 drain as 1,2,3,4,5). -/
theorem deferred_order_by_due_only_witness :
    Deferred.le ⟨1, "owner", "callable", [], []⟩ ⟨2, "owner", "callable", [], []⟩
      = Deferred.le ⟨1, "other", "thing", ["a"], []⟩ ⟨2, "x", "y", [], [("k", "v")]⟩ :=
  deferred_order_by_due_only.2.1 _ _ _ _ rfl rfl

/-- C10: `!events` does not mutate the driver state, reports the full
number of pending deferreds, and shows `min(50, count)` rows, namely
the first 50 entries of the ascending-due sorted list (so the shown
rows are themselves ascending and never more than 50). -/
theorem do_events_caps_at_fifty (st : DriverState) :
    (do_events st).1 = st ∧
      (do_events st).2.total_deferreds = st.deferreds.length ∧
      (do_events st).2.shown = (sortDeferreds st.deferreds).take 50 ∧
      (do_events st).2.num_shown = (do_events st).2.shown.length ∧
      (do_events st).2.shown.Sorted (fun a b => a.due ≤ b.due) ∧
      (do_events st).2.shown.length ≤ 50 ∧
      (do_events st).2.heartbeats = st.heartbeat_objects := by
  refine ⟨rfl, rfl, rfl, ?_, ?_, ?_, rfl⟩
  · have hlen : ((sortDeferreds st.deferreds).take 50).length
        = min 50 (sortDeferreds st.deferreds).length := List.length_take 50 _
    have hperm : (sortDeferreds st.deferreds).length = st.deferreds.length :=
      (List.mergeSort_perm st.deferreds Deferred.le).length_eq
    simp [do_events, hlen, hperm]
  · exact (sortDeferreds_sorted st.deferreds).sublist (List.take_sublist 50 _)
  · exact List.length_take_le 50 (sortDeferreds st.deferreds)

/-! ### Theorems about privilege gating, suspension, and periodic calls -/

/-- C1: for every player and every wizard-gated command, a player
without the `"wizard"` privilege gets `SecurityViolation` before the
wrapped handler runs (the outcome is the same whatever handler is
wrapped, so no handler effect and no state change can occur), while a
player holding the privilege gets the handler's result unchanged. -/
theorem wizard_privilege_gate {σ κ α : Type}
    (func g : Player → ParseResult → κ → σ → σ × α)
    (player : Player) (parsed : ParseResult) (ctx : κ) (st : σ) :
    ("wizard" ∉ player.privileges →
        executewizcommand func player parsed ctx st
            = Except.error (TaleError.securityViolation
                ("Wizard privilege required for verb " ++ parsed.verb)) ∧
          executewizcommand func player parsed ctx st
            = executewizcommand g player parsed ctx st) ∧
      ("wizard" ∈ player.privileges →
        executewizcommand func player parsed ctx st
            = Except.ok (func player parsed ctx st)) := by
  constructor
  · intro h
    constructor <;> simp [executewizcommand, h]
  · intro h
    simp [executewizcommand, h]

/-- Witness for `wizard_privilege_gate`: a concrete non-wizard and a
concrete wizard invoking a handler that increments a counter state. -/
theorem wizard_privilege_gate_witness :
    (executewizcommand (fun _ _ _ (n : ℕ) => (n + 1, "ran"))
          ⟨["player"]⟩ ⟨"!clone", [], [], [], []⟩ () 7
        = Except.error (TaleError.securityViolation
            ("Wizard privilege required for verb " ++ "!clone")) ∧
      executewizcommand (fun _ _ _ (n : ℕ) => (n + 1, "ran"))
          ⟨["player"]⟩ ⟨"!clone", [], [], [], []⟩ () 7
        = executewizcommand (fun _ _ _ (n : ℕ) => (n + 9, "other"))
          ⟨["player"]⟩ ⟨"!clone", [], [], [], []⟩ () 7) ∧
    executewizcommand (fun _ _ _ (n : ℕ) => (n + 1, "ran"))
        ⟨["wizard"]⟩ ⟨"!clone", [], [], [], []⟩ () 7
      = Except.ok (7 + 1, "ran") :=
  ⟨(wizard_privilege_gate (fun _ _ _ (n : ℕ) => (n + 1, "ran"))
      (fun _ _ _ (n : ℕ) => (n + 9, "other"))
      ⟨["player"]⟩ ⟨"!clone", [], [], [], []⟩ () 7).1 (by decide),
    (wizard_privilege_gate (fun _ _ _ (n : ℕ) => (n + 1, "ran"))
      (fun _ _ _ (n : ℕ) => (n + 1, "ran"))
      ⟨["wizard"]⟩ ⟨"!clone", [], [], [], []⟩ () 7).2 (by decide)⟩

/-- C8: `do_destroy` on one victim and the single-victim branch of
`do_clean` each yield exactly one suspension request, and running them
through the executor's suspend/resume protocol with a reply gives
exactly the result of the equivalent non-suspending handler that
received that reply directly (suspension transparency); the parse-clean
invocation of `do_destroy` indeed produces that generator. -/
theorem suspension_transparency (v : Victim) (reply : Bool) (verb : String) :
    yieldsOnce (do_destroy_loop [v] []) = true ∧
      yieldsOnce (do_clean_victim v) = true ∧
      runOneReply (do_destroy_loop [v] []) reply = some (do_destroy_direct v reply) ∧
      runOneReply (do_clean_victim v) reply = some (do_clean_direct v reply) ∧
      do_destroy ⟨verb, [], [v], [v], []⟩ = Except.ok (do_destroy_loop [v] []) := by
  refine ⟨rfl, rfl, ?_, ?_, rfl⟩ <;> cases reply <;> rfl

/-- C9: each periodic firing performs the decorated behavior and
re-schedules its own next occurrence after the drawn interval; over any
sequence of firings whose draws all fall within the configured
`[min_interval, max_interval]` range, the behavior is applied once per
firing and the final due time lies between `now + n * min` and
`now + n * max`.  The heartbeat registry itself is a bare actor set
with idempotent membership updates and carries no interval data. -/
theorem periodic_call_reschedules {σ : Type} (behavior : σ → σ) (spec : PeriodicSpec)
    (draws : List ℚ) (now : ℚ) (st : σ)
    (h : ∀ d ∈ draws, spec.min_interval ≤ d ∧ d ≤ spec.max_interval) :
    (periodic_run behavior draws now st).1 = behavior^[draws.length] st ∧
      (periodic_run behavior draws now st).2 = now + draws.sum ∧
      now + draws.length * spec.min_interval ≤ (periodic_run behavior draws now st).2 ∧
      (periodic_run behavior draws now st).2 ≤ now + draws.length * spec.max_interval ∧
      (∀ (reg : List String) (actor : String),
        registerHeartbeat (registerHeartbeat reg actor) actor = registerHeartbeat reg actor) := by
  have run_eq : ∀ (ds : List ℚ) (t : ℚ) (s : σ),
      periodic_run behavior ds t s = (behavior^[ds.length] s, t + ds.sum) := by
    intro ds
    induction ds with
    | nil => intro t s; simp [periodic_run]
    | cons d rest ih =>
      intro t s
      have hstep : periodic_run behavior (d :: rest) t s
          = periodic_run behavior rest (t + d) (behavior s) := rfl
      rw [hstep, ih]
      simp only [List.length_cons, List.sum_cons, Function.iterate_succ_apply, Prod.mk.injEq]
      exact ⟨trivial, by ring⟩
  refine ⟨?_, ?_, ?_, ?_, ?_⟩
  · rw [run_eq]
  · rw [run_eq]
  · rw [run_eq]
    show now + (draws.length : ℚ) * spec.min_interval ≤ now + draws.sum
    have hsum : (draws.length : ℚ) * spec.min_interval ≤ draws.sum := by
      have := List.card_nsmul_le_sum draws spec.min_interval (fun x hx => (h x hx).1)
      simpa [nsmul_eq_mul] using this
    linarith
  · rw [run_eq]
    show now + draws.sum ≤ now + (draws.length : ℚ) * spec.max_interval
    have hsum : draws.sum ≤ (draws.length : ℚ) * spec.max_interval := by
      have := List.sum_le_card_nsmul draws spec.max_interval (fun x hx => (h x hx).2)
      simpa [nsmul_eq_mul] using this
    linarith
  · intro reg actor
    by_cases hmem : actor ∈ reg
    · simp [registerHeartbeat, hmem]
    · simp [registerHeartbeat, hmem]

/-- Witness for `periodic_call_reschedules`: the cat's purr configured
with `call_periodically(1, 60)`, firing twice with draws 3 and 40 on a
counter state. -/
theorem periodic_call_reschedules_witness :
    (periodic_run (fun n : ℕ => n + 1) [3, 40] 0 0).1 = (fun n : ℕ => n + 1)^[2] 0 ∧
      (periodic_run (fun n : ℕ => n + 1) [3, 40] 0 0).2 = 0 + (43 : ℚ) ∧
      (0 : ℚ) + 2 * 1 ≤ (periodic_run (fun n : ℕ => n + 1) [3, 40] 0 0).2 ∧
      (periodic_run (fun n : ℕ => n + 1) [3, 40] 0 0).2 ≤ 0 + 2 * 60 ∧
      (∀ (reg : List String) (actor : String),
        registerHeartbeat (registerHeartbeat reg actor) actor = registerHeartbeat reg actor) := by
  have h := periodic_call_reschedules (fun n : ℕ => n + 1) ⟨1, 60⟩ [3, 40] 0 0
    (by norm_num)
  refine ⟨h.1, ?_, ?_, ?_, h.2.2.2.2⟩
  · have h2 := h.2.1
    norm_num at h2 ⊢
    exact h2
  · have h3 := h.2.2.1
    norm_num at h3 ⊢
    exact h3
  · have h4 := h.2.2.2.1
    norm_num at h4 ⊢
    exact h4

end Tale
